import Mathlib

/-!
Shallow embedding of the link-resolution engine of the `adonis-vscode-extension`
repository, centred on `InertiaLinker` (`src/linkers/inertia_linker.ts`) and
`DocumentLinkFactory.fromViewLink` (`src/vscode/document_link_factory`).

JavaScript strings are modelled as `List Char`; machine behaviour that can
throw (a `TypeError` on an undefined property access, a rejected filesystem
search) is modelled with `Except JsError`.  The external npm primitives used by
the source (`path.join`, `slash`, `fast-glob`) are not part of the repository;
they are modelled from their documented contracts, as noted on each definition.
-/

namespace AdonisLinker

/-- A JavaScript exception: either a `TypeError` raised by an undefined
property access, or a rejected filesystem search (I/O or permission error). -/
inductive JsError where
  | typeError : JsError
  | fsError : List Char → JsError
deriving DecidableEq, Repr

/-- The position record `{ line, colStart, colEnd }` returned by
`InertiaLinker.#matchIndexToPosition`. -/
structure Pos where
  line : Nat
  colStart : Nat
  colEnd : Nat
deriving DecidableEq, Repr

/-- The slice of `AdonisProject` the linker consumes: only `.path` is read. -/
structure AdonisProject where
  path : List Char
deriving DecidableEq, Repr

/-- The `InertiaLink` record `{ templatePath, position }`; `templatePath` is
`null` (`none`) when no file matched the derived glob pattern. -/
structure InertiaLink where
  templatePath : Option (List Char)
  position : Pos
deriving DecidableEq, Repr

/-- The options object taken by `InertiaLinker.getLinks`. -/
structure GetLinksOptions where
  fileContent : List Char
  project : AdonisProject
  pagesDirectory : List Char
deriving DecidableEq, Repr

/-- `String.prototype.split('\n')`: split on every newline; the empty string
splits into one empty piece. -/
def splitOnNl : List Char → List (List Char)
  | [] => [[]]
  | c :: rest =>
    if c = '\n' then [] :: splitOnNl rest
    else
      match splitOnNl rest with
      | [] => [[c]]
      | l :: ls => (c :: l) :: ls

/-- `pat` is a prefix of `s` (Boolean, on code points). -/
def startsWith : List Char → List Char → Bool
  | [], _ => true
  | _ :: _, [] => false
  | p :: ps, c :: cs => p = c && startsWith ps cs

/-- `String.prototype.indexOf`: index of the first occurrence of `pat` in `s`,
`none` when absent (JavaScript returns `-1` there). -/
def idxOf (pat : List Char) : List Char → Option Nat
  | [] => if pat.isEmpty then some 0 else none
  | c :: cs =>
    if startsWith pat (c :: cs) then some 0
    else (idxOf pat cs).map (· + 1)

/-- `String.prototype.includes`: `pat` occurs somewhere in `s`. -/
def containsSub (pat s : List Char) : Bool := (idxOf pat s).isSome

/-- `InertiaLinker.#matchIndexToPosition`.  `lines.findIndex(...)` yields `-1`
when no line contains the capture; the subsequent `lines[line]!.indexOf`
then reads `.indexOf` of `undefined` and throws a `TypeError`, modelled as
`Except.error .typeError`.  In the found branch the chosen line does contain
the capture, so `indexOf` cannot return `-1`; the `getD 0` default is
unreachable. -/
def matchIndexToPosition (fileContent capture : List Char) : Except JsError Pos :=
  let lines := splitOnNl fileContent
  match lines.findIdx? (fun l => containsSub capture l) with
  | none => Except.error JsError.typeError
  | some line =>
    let colStart := (idxOf capture (lines.getD line [])).getD 0
    Except.ok ⟨line, colStart, colStart + capture.length⟩

/-- `match[1]!.replace(/\"|\'/g, '')`: every double or single quote character
is removed, wherever it occurs. -/
def stripQuotes (s : List Char) : List Char :=
  s.filter (fun c => !(c = '"' || c = '\''))

/-- `.replace(/\./g, '/')` composed with `path.join`'s separator: every dot
becomes a path separator. -/
def dotsToSep (s : List Char) : List Char :=
  s.map (fun c => if c = '.' then '/' else c)

/-- `path.join(a, b)` from node, modelled from its contract on separator-free
well-formed segments: interpose the POSIX separator. -/
def joinSegs (a b : List Char) : List Char := a ++ '/' :: b

/-- The `slash` npm package: back-slashes become forward slashes, except on a
Windows extended-length path (prefix `\\?\`), returned unchanged. -/
def slashify (p : List Char) : List Char :=
  if startsWith ['\\', '\\', '?', '\\'] p then p
  else p.map (fun c => if c = '\\' then '/' else c)

/-- The glob pattern built by `getLinks` for one capture:
`slash(join(project.path, pagesDirectory, fileName + '.vue'))` with
`fileName = capture.replace(/\"|\'/g, '').replace(/\./g, '/')`.  The `.vue`
extension is hard-coded in the source. -/
def buildPattern (projectPath pagesDirectory capture : List Char) : List Char :=
  slashify (joinSegs (joinSegs projectPath pagesDirectory)
    (dotsToSep (stripQuotes capture) ++ ('.' :: ['v', 'u', 'e'])))

/-- Case-insensitive equality of two paths, per code point. -/
def lowerEq (a b : List Char) : Bool :=
  a.map Char.toLower == b.map Char.toLower

/-- The `fast-glob` search primitive as invoked by `getLinks`
(`onlyFiles: true`, `caseSensitiveMatch: false`, wildcard-free absolute
pattern), modelled from its documented contract: the filesystem is a list of
file paths in the tool's natural enumeration order, and the search returns
those entries equal to the pattern up to character case. -/
def fgSearch (disk : List (List Char)) (pat : List Char) : List (List Char) :=
  disk.filter (fun f => lowerEq f pat)

/-- The body of the per-match async closure inside `getLinks`: build the glob
pattern, await the filesystem search, compute the position, and produce the
`InertiaLink`; a rejected search or a thrown `TypeError` rejects this match's
promise. -/
def resolveMatch (fsearch : List Char → Except JsError (List (List Char)))
    (opts : GetLinksOptions) (capture : List Char) : Except JsError InertiaLink :=
  let pattern := buildPattern opts.project.path opts.pagesDirectory capture
  match fsearch pattern with
  | Except.error e => Except.error e
  | Except.ok files =>
    match matchIndexToPosition opts.fileContent capture with
    | Except.error e => Except.error e
    | Except.ok position =>
      match files with
      | [] => Except.ok ⟨none, position⟩
      | f :: _ => Except.ok ⟨some (slashify f), position⟩

/-- All slots filled: turn `[some a, ...]` into `some [a, ...]`. -/
def seqOpt : List (Option α) → Option (List α)
  | [] => some []
  | none :: _ => none
  | some a :: rest => (seqOpt rest).map (a :: ·)

/-- One run of `Promise.all` over already-determined task outcomes, processed
in the completion order `order` (a list of task indices): the first task that
completes with a rejection rejects the aggregate; indices outside the batch
never complete and are skipped; a fulfilled task stores its value in the slot
of its original index.  Returns `none` when the schedule leaves a slot
unsettled (the aggregate promise never resolves). -/
def promiseAllGo (tasks : List (Except JsError α)) :
    List Nat → List (Option α) → Option (Except JsError (List α))
  | [], slots => (seqOpt slots).map Except.ok
  | j :: rest, slots =>
    match tasks.get? j with
    | none => promiseAllGo tasks rest slots
    | some (Except.error e) => some (Except.error e)
    | some (Except.ok a) => promiseAllGo tasks rest (slots.set j (some a))

/-- `Promise.all(tasks)` under the completion order `order`. -/
def promiseAll (tasks : List (Except JsError α)) (order : List Nat) :
    Option (Except JsError (List α)) :=
  promiseAllGo tasks order (List.replicate tasks.length none)

/-- `result.filter(Boolean)`: every element of `result` is a JavaScript object
and objects are always truthy, so nothing is removed. -/
def jsFilterBoolean (links : List InertiaLink) : List InertiaLink :=
  links.filter (fun _ => true)

/-- `InertiaLinker.getLinks`.  `matchAll` abstracts
`fileContent.matchAll(inertiaRegex)` restricted to the capture group
`match[1]!`, the only component of a match the method reads; it returns the
captures in left-to-right, top-to-bottom text order.  `fsearch` abstracts the
awaited `fast-glob` call; `order` is the completion order of the per-match
concurrent lookups.  The result is `none` when the aggregate promise never
settles (impossible for a real schedule), `some (.error e)` when `Promise.all`
rejects, and `some (.ok links)` otherwise. -/
def getLinks (fsearch : List Char → Except JsError (List (List Char)))
    (matchAll : List Char → List (List Char)) (opts : GetLinksOptions)
    (order : List Nat) : Option (Except JsError (List InertiaLink)) :=
  let matchesArray := matchAll opts.fileContent
  let tasks := matchesArray.map (fun m => resolveMatch fsearch opts m)
  (promiseAll tasks order).map (Except.map jsFilterBoolean)

/-- Modelled from the spec: the spec's description of view-reference
normalization, for refinement comparison with `buildPattern`.  The spec strips
only the ENCLOSING quote characters of the capture. -/
def specStripEnclosingQuotes (s : List Char) : List Char :=
  ((s.dropWhile (fun c => c = '"' || c = '\'')).reverse.dropWhile
    (fun c => c = '"' || c = '\'')).reverse

/-- Modelled from the spec: the spec's glob pattern for a view reference —
`projectRoot / baseDir / <converted>.{extension}` with "extension is a
per-project configurable, e.g. `vue`, `edge`" — for refinement comparison
with the source's `buildPattern`, whose extension is hard-coded. -/
def specBuildPattern (projectRoot baseDir capture ext : List Char) : List Char :=
  slashify (joinSegs (joinSegs projectRoot baseDir)
    (dotsToSep (specStripEnclosingQuotes capture) ++ '.' :: ext))

/-- A link of the embedding of `DocumentLink` built by
`DocumentLinkFactory.fromViewLink`: the range positions and the target path
handed to `Uri.parse(pathToFileURL(...).href)`. -/
structure DocLink where
  startLine : Nat
  startCol : Nat
  endLine : Nat
  endCol : Nat
  target : List Char
deriving DecidableEq, Repr

/-- `pathToFileURL(p).href` from node, modelled from its contract: prepend the
`file://` scheme to the path. -/
def pathToFileUrl (p : List Char) : List Char :=
  'f' :: 'i' :: 'l' :: 'e' :: ':' :: '/' :: '/' :: p

/-- `DocumentLinkFactory.fromViewLink`: keep the links whose `templatePath`
is not `null`, and map each to a `DocumentLink` over the stored range. -/
def fromViewLink (links : List InertiaLink) : List DocLink :=
  (links.filter (fun link => link.templatePath.isSome)).map (fun link =>
    ⟨link.position.line, link.position.colStart,
     link.position.line, link.position.colEnd,
     pathToFileUrl (link.templatePath.getD [])⟩)

/-! ### String-search lemmas -/

theorem startsWith_take : ∀ {pat s : List Char}, startsWith pat s = true →
    s.take pat.length = pat
  | [], _, _ => rfl
  | _ :: _, [], h => by simp [startsWith] at h
  | p :: ps, c :: cs, h => by
    simp only [startsWith, Bool.and_eq_true, decide_eq_true_eq] at h
    simp [List.take, h.1, startsWith_take h.2]

theorem idxOf_some_take : ∀ {s : List Char} {pat : List Char} {i : Nat},
    idxOf pat s = some i → (s.drop i).take pat.length = pat
  | [], pat, i, h => by
    simp only [idxOf] at h
    split at h
    · cases h
      simpa [List.isEmpty_iff] using ‹pat.isEmpty = true›
    · cases h
  | c :: cs, pat, i, h => by
    simp only [idxOf] at h
    split at h
    · cases h
      exact startsWith_take ‹startsWith pat (c :: cs) = true›
    · rcases Option.map_eq_some'.mp h with ⟨i', hi', rfl⟩
      simpa using idxOf_some_take hi'

theorem containsSub_of_startsWith {pat s : List Char}
    (h : startsWith pat s = true) : containsSub pat s = true := by
  cases s with
  | nil =>
    cases pat with
    | nil => rfl
    | cons p ps => simp [startsWith] at h
  | cons c cs => simp [containsSub, idxOf, h]

theorem containsSub_cons {pat s : List Char} (c : Char)
    (h : containsSub pat s = true) : containsSub pat (c :: s) = true := by
  simp only [containsSub, idxOf] at h ⊢
  split
  · rfl
  · rcases Option.isSome_iff_exists.mp h with ⟨i, hi⟩
    simp [hi]

theorem splitOnNl_ne_nil : ∀ (t : List Char), splitOnNl t ≠ []
  | [] => by simp [splitOnNl]
  | c :: rest => by
    simp only [splitOnNl]
    split
    · simp
    · split <;> simp

theorem startsWith_headLine : ∀ (pat t : List Char), '\n' ∉ pat →
    startsWith pat t = true →
    ∃ l ls, splitOnNl t = l :: ls ∧ startsWith pat l = true
  | [], t, _, _ => by
    cases h : splitOnNl t with
    | nil => exact absurd h (splitOnNl_ne_nil t)
    | cons l ls => exact ⟨l, ls, rfl, rfl⟩
  | p :: ps, [], _, h => by simp [startsWith] at h
  | p :: ps, c :: rest, hnl, h => by
    simp only [startsWith, Bool.and_eq_true, decide_eq_true_eq] at h
    obtain ⟨rfl, hps⟩ := h
    have hc : ¬ p = '\n' := fun hc => hnl (hc ▸ List.mem_cons_self p ps)
    have hnl' : '\n' ∉ ps := fun hm => hnl (List.mem_cons_of_mem p hm)
    obtain ⟨l, ls, hsplit, hsw⟩ := startsWith_headLine ps rest hnl' hps
    refine ⟨p :: l, ls, ?_, ?_⟩
    · simp [splitOnNl, hc, hsplit]
    · simp [startsWith, hsw]

theorem anyLine_of_contains : ∀ (t pat : List Char), '\n' ∉ pat →
    containsSub pat t = true →
    (splitOnNl t).any (fun l => containsSub pat l) = true
  | [], pat, _, h => by
    simp only [containsSub, idxOf] at h
    split at h
    · have : pat = [] := List.isEmpty_iff.mp ‹pat.isEmpty = true›
      subst this
      simp [splitOnNl, containsSub, idxOf]
    · simp at h
  | c :: rest, pat, hnl, h => by
    simp only [containsSub, idxOf] at h
    split at h
    · obtain ⟨l, ls, hsplit, hsw⟩ :=
        startsWith_headLine pat (c :: rest) hnl ‹startsWith pat (c :: rest) = true›
      simp [hsplit, List.any_cons, containsSub_of_startsWith hsw]
    · have hrest : containsSub pat rest = true := by
        simp only [containsSub]
        cases hio : idxOf pat rest with
        | none => rw [hio] at h; simp at h
        | some i => simp
      have ih := anyLine_of_contains rest pat hnl hrest
      by_cases hc : c = '\n'
      · subst hc
        simpa [splitOnNl, List.any_cons] using Or.inr ih
      · cases hsplit : splitOnNl rest with
        | nil => exact absurd hsplit (splitOnNl_ne_nil rest)
        | cons l ls =>
          rw [hsplit] at ih
          simp only [List.any_cons, Bool.or_eq_true] at ih
          have : splitOnNl (c :: rest) = (c :: l) :: ls := by
            simp [splitOnNl, hc, hsplit]
          rcases ih with hl | hls
          · simp [this, List.any_cons, containsSub_cons c hl]
          · simp [this, List.any_cons, hls]

/-! ### `List.findIdx?` characterization -/

theorem findIdxOpt_some {α : Type} (p : α → Bool) : ∀ (l : List α) (i : Nat),
    l.findIdx? p = some i → ∃ x, l.get? i = some x ∧ p x = true
  | [], i, h => by simp [List.findIdx?_nil] at h
  | a :: as, i, h => by
    rw [List.findIdx?_cons] at h
    split at h
    · cases h
      exact ⟨a, rfl, ‹p a = true›⟩
    · rw [List.findIdx?_succ] at h
      rcases Option.map_eq_some'.mp h with ⟨i', hi', rfl⟩
      rcases findIdxOpt_some p as i' hi' with ⟨x, hx, hpx⟩
      exact ⟨x, by simpa using hx, hpx⟩

theorem findIdxOpt_min {α : Type} (p : α → Bool) : ∀ (l : List α) (i : Nat),
    l.findIdx? p = some i →
    ∀ k, k < i → ∀ y, l.get? k = some y → p y = false
  | [], i, h => by simp [List.findIdx?_nil] at h
  | a :: as, i, h => by
    rw [List.findIdx?_cons] at h
    split at h
    · cases h
      intro k hk
      omega
    · rw [List.findIdx?_succ] at h
      rcases Option.map_eq_some'.mp h with ⟨i', hi', rfl⟩
      intro k hk y hy
      cases k with
      | zero =>
        cases hy
        simpa using ‹¬ p a = true›
      | succ k' =>
        exact findIdxOpt_min p as i' hi' k' (by omega) y (by simpa using hy)

theorem findIdxOpt_intro {α : Type} (p : α → Bool) : ∀ (l : List α) (i : Nat)
    (x : α), l.get? i = some x → p x = true →
    (∀ k y, k < i → l.get? k = some y → p y = false) →
    l.findIdx? p = some i
  | [], i, x, hx, _, _ => by simp at hx
  | a :: as, 0, x, hx, hpx, _ => by
    cases hx
    rw [List.findIdx?_cons, if_pos hpx]
  | a :: as, i + 1, x, hx, hpx, hmin => by
    have hpa : p a = false := hmin 0 a (Nat.succ_pos i) rfl
    rw [List.findIdx?_cons, if_neg (by simp [hpa]), List.findIdx?_succ]
    have : as.findIdx? p = some i :=
      findIdxOpt_intro p as i x (by simpa using hx) hpx
        (fun k y hk hky => hmin (k + 1) y (by omega) (by simpa using hky))
    simp [this]

/-! ### Position-mapper lemmas -/

theorem matchIndexToPosition_ok {text capture : List Char}
    (hnl : '\n' ∉ capture) (hocc : containsSub capture text = true) :
    ∃ n c, (splitOnNl text).findIdx? (fun l => containsSub capture l) = some n ∧
      idxOf capture ((splitOnNl text).getD n []) = some c ∧
      matchIndexToPosition text capture =
        Except.ok ⟨n, c, c + capture.length⟩ := by
  have hany := anyLine_of_contains text capture hnl hocc
  rcases List.any_eq_true.mp hany with ⟨ln, hmem, hln⟩
  have hfind := List.findIdx?_eq_some_of_exists ⟨ln, hmem, hln⟩
  set n := (splitOnNl text).findIdx (fun l => containsSub capture l) with hn
  rcases findIdxOpt_some _ _ _ hfind with ⟨ln', hget, hln'⟩
  have hfind' : (splitOnNl text).findIdx? (fun l => containsSub capture l) = some n :=
    hfind
  have hgetD : (splitOnNl text).getD n [] = ln' := by
    rw [List.getD_eq_getElem?_getD, ← List.get?_eq_getElem?, hget]
    rfl
  rcases Option.isSome_iff_exists.mp hln' with ⟨c, hc⟩
  refine ⟨n, c, hfind', by rw [hgetD]; exact hc, ?_⟩
  unfold matchIndexToPosition
  simp only [hfind', hgetD, hc, Option.getD_some]

/-! ### `Promise.all` lemmas -/

theorem seqOpt_map_some {α : Type} : ∀ (l : List α), seqOpt (l.map some) = some l
  | [] => rfl
  | a :: as => by simp [seqOpt, seqOpt_map_some as]

theorem jsFilterBoolean_id (links : List InertiaLink) :
    jsFilterBoolean links = links :=
  List.filter_true links

theorem promiseAllGo_all_ok {α : Type} (oks : List α) :
    ∀ (order : List Nat) (slots : List (Option α)),
      slots.length = oks.length →
      (∀ i, i < oks.length → i ∈ order ∨ slots.get? i = (oks.get? i).map some) →
      promiseAllGo (oks.map Except.ok) order slots = some (Except.ok oks)
  | [], slots, hlen, hinv => by
    have hslots : slots = oks.map some := by
      apply List.ext
      intro i
      by_cases hi : i < oks.length
      · rcases hinv i hi with h | h
        · exact absurd h (List.not_mem_nil i)
        · rw [h, List.get?_map]
      · have h1 : slots.get? i = none :=
          List.get?_eq_none.mpr (by omega)
        have h2 : (oks.map some).get? i = none :=
          List.get?_eq_none.mpr (by simpa using by omega)
        rw [h1, h2]
    simp [promiseAllGo, hslots, seqOpt_map_some]
  | j :: rest, slots, hlen, hinv => by
    by_cases hj : j < oks.length
    · have hv : oks.get? j = some (oks.get ⟨j, hj⟩) := List.get?_eq_get hj
      have htask : (oks.map Except.ok : List (Except JsError α)).get? j =
          some (Except.ok (oks.get ⟨j, hj⟩)) := by
        rw [List.get?_map, hv]
        rfl
      have hslot : slots.get? j = some (slots.get ⟨j, by omega⟩) :=
        List.get?_eq_get (by omega)
      have ih := promiseAllGo_all_ok oks rest (slots.set j (some (oks.get ⟨j, hj⟩)))
        (by simp [hlen])
        (by
          intro i hi
          by_cases hij : i = j
          · subst hij
            right
            rw [List.get?_set_eq, hslot, hv]
            rfl
          · rcases hinv i hi with hmem | hsl
            · rcases List.mem_cons.mp hmem with h | h
              · exact absurd h hij
              · exact Or.inl h
            · right
              rw [List.get?_set_ne _ _ (fun h => hij h.symm), hsl])
      simp only [promiseAllGo, htask]
      exact ih
    · have htask : (oks.map Except.ok : List (Except JsError α)).get? j = none :=
        List.get?_eq_none.mpr (by simpa using by omega)
      have ih := promiseAllGo_all_ok oks rest slots hlen
        (by
          intro i hi
          rcases hinv i hi with hmem | hsl
          · rcases List.mem_cons.mp hmem with h | h
            · omega
            · exact Or.inl h
          · exact Or.inr hsl)
      simp only [promiseAllGo, htask]
      exact ih

theorem promiseAll_all_ok {α : Type} (oks : List α) (order : List Nat)
    (hcover : ∀ i, i < oks.length → i ∈ order) :
    promiseAll (oks.map Except.ok) order = some (Except.ok oks) :=
  promiseAllGo_all_ok oks order
    (List.replicate (oks.map Except.ok).length none)
    (by simp)
    (fun i hi => Or.inl (hcover i hi))

theorem promiseAllGo_err {α : Type} (tasks : List (Except JsError α))
    (j : Nat) (e : JsError) (hj : tasks.get? j = some (Except.error e)) :
    ∀ (order : List Nat) (slots : List (Option α)), j ∈ order →
      ∃ e2, promiseAllGo tasks order slots = some (Except.error e2) := by
  intro order
  induction order with
  | nil => exact fun slots hmem => absurd hmem (List.not_mem_nil j)
  | cons k rest ih =>
    intro slots hmem
    cases htk : tasks.get? k with
    | none =>
      have hjk : j ≠ k := by
        rintro rfl
        rw [hj] at htk
        cases htk
      have hjr : j ∈ rest := by
        rcases List.mem_cons.mp hmem with h | h
        · exact absurd h hjk
        · exact h
      rcases ih slots hjr with ⟨e2, h2⟩
      exact ⟨e2, by simp only [promiseAllGo, htk]; exact h2⟩
    | some t =>
      cases t with
      | error e2 => exact ⟨e2, by simp only [promiseAllGo, htk]⟩
      | ok a =>
        have hjk : j ≠ k := by
          rintro rfl
          rw [hj] at htk
          cases htk
        have hjr : j ∈ rest := by
          rcases List.mem_cons.mp hmem with h | h
          · exact absurd h hjk
          · exact h
        rcases ih (slots.set k (some a)) hjr with ⟨e2, h2⟩
        exact ⟨e2, by simp only [promiseAllGo, htk]; exact h2⟩

theorem promiseAll_err {α : Type} (tasks : List (Except JsError α))
    (order : List Nat) (j : Nat) (e : JsError)
    (hj : tasks.get? j = some (Except.error e)) (hmem : j ∈ order) :
    ∃ e2, promiseAll tasks order = some (Except.error e2) :=
  promiseAllGo_err tasks j e hj order _ hmem

theorem head_filter_eq_find {α : Type} (p : α → Bool) : ∀ (l : List α),
    (l.filter p).head? = l.find? p
  | [] => rfl
  | a :: as => by
    by_cases h : p a
    · simp [List.filter_cons, List.find?_cons, h]
    · simp [List.filter_cons, List.find?_cons, h, head_filter_eq_find p as]

theorem getLinks_all_ok (fsearch : List Char → Except JsError (List (List Char)))
    (matchAll : List Char → List (List Char)) (opts : GetLinksOptions)
    (order : List Nat) (oks : List InertiaLink)
    (hok : (matchAll opts.fileContent).map (resolveMatch fsearch opts) =
      oks.map Except.ok)
    (hcover : ∀ i, i < (matchAll opts.fileContent).length → i ∈ order) :
    getLinks fsearch matchAll opts order = some (Except.ok oks) := by
  have hlen : (matchAll opts.fileContent).length = oks.length := by
    simpa using congrArg List.length hok
  have hview : getLinks fsearch matchAll opts order =
      (promiseAll ((matchAll opts.fileContent).map (resolveMatch fsearch opts))
        order).map (Except.map jsFilterBoolean) := rfl
  rw [hview, hok, promiseAll_all_ok oks order (fun i hi => hcover i (by omega))]
  simp [Except.map, jsFilterBoolean_id]

/-! ### Claim theorems -/

/-- Claim C1: for every input text in which the reference pattern produces N
matches, `getLinks` returns a sequence of exactly N `InertiaLink` records,
ordered identically to the left-to-right, top-to-bottom order of the matches
in the text, for every completion order of the per-match concurrent
filesystem lookups that settles the batch (the batch is gathered by original
index, not by completion order). -/
theorem getLinks_preserves_match_order
    (fsearch : List Char → Except JsError (List (List Char)))
    (matchAll : List Char → List (List Char)) (opts : GetLinksOptions)
    (order : List Nat) (oks : List InertiaLink)
    (hok : (matchAll opts.fileContent).map (resolveMatch fsearch opts) =
      oks.map Except.ok)
    (hcover : ∀ i, i < (matchAll opts.fileContent).length → i ∈ order) :
    getLinks fsearch matchAll opts order = some (Except.ok oks) ∧
    oks.length = (matchAll opts.fileContent).length ∧
    ∀ i, ((matchAll opts.fileContent).get? i).map (resolveMatch fsearch opts) =
      (oks.get? i).map Except.ok := by
  refine ⟨getLinks_all_ok fsearch matchAll opts order oks hok hcover, ?_, ?_⟩
  · simpa using (congrArg List.length hok).symm
  · intro i
    have := congrArg (fun l => l.get? i) hok
    simpa [List.get?_map] using this

/-- Witness for C1: two matches, filesystem lookups completing in reverse
order `[1, 0]`, still assembled in source order. -/
theorem getLinks_preserves_match_order_witness :
    getLinks (fun _ => Except.ok []) (fun _ => ["'a.b'".toList, "'c.d'".toList])
        ⟨"x 'a.b' y 'c.d'".toList, ⟨"/p".toList⟩, "pages".toList⟩ [1, 0] =
      some (Except.ok [⟨none, ⟨0, 2, 7⟩⟩, ⟨none, ⟨0, 10, 15⟩⟩]) ∧
    ([⟨none, ⟨0, 2, 7⟩⟩, ⟨none, ⟨0, 10, 15⟩⟩] : List InertiaLink).length =
      ((fun _ => ["'a.b'".toList, "'c.d'".toList])
        (GetLinksOptions.fileContent
          ⟨"x 'a.b' y 'c.d'".toList, ⟨"/p".toList⟩, "pages".toList⟩)).length ∧
    ∀ i, (((fun _ => ["'a.b'".toList, "'c.d'".toList])
        (GetLinksOptions.fileContent
          ⟨"x 'a.b' y 'c.d'".toList, ⟨"/p".toList⟩, "pages".toList⟩)).get? i).map
        (resolveMatch (fun _ => Except.ok [])
          ⟨"x 'a.b' y 'c.d'".toList, ⟨"/p".toList⟩, "pages".toList⟩) =
      (([⟨none, ⟨0, 2, 7⟩⟩, ⟨none, ⟨0, 10, 15⟩⟩] : List InertiaLink).get? i).map
        Except.ok :=
  getLinks_preserves_match_order (fun _ => Except.ok [])
    (fun _ => ["'a.b'".toList, "'c.d'".toList])
    ⟨"x 'a.b' y 'c.d'".toList, ⟨"/p".toList⟩, "pages".toList⟩ [1, 0]
    [⟨none, ⟨0, 2, 7⟩⟩, ⟨none, ⟨0, 10, 15⟩⟩] (by rfl) (by decide)

/-- Claim C2: for a reference string (a newline-free capture) occurring in the
text, the computed position satisfies: the slice of the located line from
`colStart` (inclusive) to `colEnd` (exclusive) equals the captured string, and
`colEnd - colStart` equals the capture's length.  The hypothesis is weaker
than the claim's "occurs exactly once": occurrence suffices. -/
theorem position_slice_eq_capture (text capture : List Char)
    (hnl : '\n' ∉ capture) (hocc : containsSub capture text = true) :
    ∃ p, matchIndexToPosition text capture = Except.ok p ∧
      (((splitOnNl text).getD p.line []).drop p.colStart).take
        (p.colEnd - p.colStart) = capture ∧
      p.colEnd - p.colStart = capture.length := by
  rcases matchIndexToPosition_ok hnl hocc with ⟨n, c, _, hidx, hres⟩
  refine ⟨⟨n, c, c + capture.length⟩, hres, ?_, by simp⟩
  simpa using idxOf_some_take hidx

/-- Witness for C2 at a concrete render call. -/
theorem position_slice_eq_capture_witness :
    ∃ p, matchIndexToPosition "render('users.show')".toList "'users.show'".toList =
        Except.ok p ∧
      (((splitOnNl "render('users.show')".toList).getD p.line []).drop p.colStart).take
        (p.colEnd - p.colStart) = "'users.show'".toList ∧
      p.colEnd - p.colStart = "'users.show'".toList.length :=
  position_slice_eq_capture "render('users.show')".toList "'users.show'".toList
    (by decide) (by decide)

/-- Claim C3: the position mapper splits the text on newlines and attributes
every match to the first line containing the capture as a substring; when the
same capture occurs verbatim on a later line `j`, the computed position still
names the earlier first-containing line `i`, so both occurrences receive the
position of line `i`. -/
theorem duplicate_capture_attributed_to_first_line (text capture : List Char)
    (i j : Nat) (hij : i < j) (hjlen : j < (splitOnNl text).length)
    (hi : containsSub capture ((splitOnNl text).getD i []) = true)
    (hfirst : ∀ k, k < i →
      containsSub capture ((splitOnNl text).getD k []) = false)
    (hj : containsSub capture ((splitOnNl text).getD j []) = true) :
    ∃ p, matchIndexToPosition text capture = Except.ok p ∧
      p.line = i ∧ p.line ≠ j := by
  have hilen : i < (splitOnNl text).length := by omega
  have hget : (splitOnNl text).get? i =
      some ((splitOnNl text).get ⟨i, hilen⟩) := List.get?_eq_get hilen
  have hgetD : (splitOnNl text).getD i [] = (splitOnNl text).get ⟨i, hilen⟩ := by
    rw [List.getD_eq_getElem?_getD, ← List.get?_eq_getElem?, hget]
    rfl
  have hfind : (splitOnNl text).findIdx? (fun l => containsSub capture l) =
      some i := by
    refine findIdxOpt_intro _ _ i ((splitOnNl text).get ⟨i, hilen⟩)
      hget (by rw [← hgetD]; exact hi) ?_
    intro k y hk hky
    have hklen : k < (splitOnNl text).length := by omega
    have : (splitOnNl text).getD k [] = y := by
      rw [List.getD_eq_getElem?_getD, ← List.get?_eq_getElem?, hky]
      rfl
    rw [← this]
    exact hfirst k hk
  rcases Option.isSome_iff_exists.mp (by rw [hgetD] at hi; exact hi :
    (idxOf capture ((splitOnNl text).get ⟨i, hilen⟩)).isSome = true) with ⟨c, hc⟩
  refine ⟨⟨i, c, c + capture.length⟩, ?_, rfl, Nat.ne_of_lt hij⟩
  unfold matchIndexToPosition
  simp only [hfind, hgetD, hc, Option.getD_some]

/-- Witness for C3: the capture occurs on lines 0 and 1; the match on line 1
is attributed to line 0. -/
theorem duplicate_capture_attributed_to_first_line_witness :
    ∃ p, matchIndexToPosition "a 'x.y' b\nc 'x.y' d".toList "'x.y'".toList =
        Except.ok p ∧ p.line = 0 ∧ p.line ≠ 1 :=
  duplicate_capture_attributed_to_first_line
    "a 'x.y' b\nc 'x.y' d".toList "'x.y'".toList 0 1
    (by decide) (by decide) (by decide) (by decide) (by decide)

/-- Counterexample for C4: the source's glob pattern diverges from the spec's
description of it.  First, the extension is not a per-project configurable:
the source hard-codes `.vue`, so the spec-mirrored pattern with extension
`edge` differs from the source's pattern, and on a disk holding
`pages/users/show.edge` the source resolves `'users.show'` to an absent
target although the spec-mirrored `edge` pattern matches that file.  Second,
the source strips EVERY quote character of the capture, not only the
enclosing ones. -/
theorem view_resolution_spec_divergence_cex :
    (specBuildPattern "/p".toList "pages".toList "'users.show'".toList
        "edge".toList ≠
      buildPattern "/p".toList "pages".toList "'users.show'".toList) ∧
    (specBuildPattern "/p".toList "pages".toList "'a'b'".toList "vue".toList ≠
      buildPattern "/p".toList "pages".toList "'a'b'".toList) ∧
    (resolveMatch
        (fun pat => Except.ok (fgSearch ["/p/pages/users/show.edge".toList] pat))
        ⟨"render('users.show')".toList, ⟨"/p".toList⟩, "pages".toList⟩
        "'users.show'".toList =
      Except.ok ⟨none, ⟨0, 7, 19⟩⟩) ∧
    fgSearch ["/p/pages/users/show.edge".toList]
        (specBuildPattern "/p".toList "pages".toList "'users.show'".toList
          "edge".toList) =
      ["/p/pages/users/show.edge".toList] :=
  ⟨by decide, by decide, rfl, by decide⟩

/-- Claim C4 as amended: for every view reference capture, path resolution
strips every quote character, replaces every dot with the path separator,
joins `projectRoot / pagesDirectory / <converted>` with the fixed extension
`.vue` appended, runs a case-insensitive files-only search over the
filesystem, and returns the first matching file in the search's natural
enumeration order normalized to a forward-slash path, or an absent target
when no file matches; a reference whose case differs from the on-disk
filename still resolves to that file. -/
theorem view_resolution_code_behaviour (disk : List (List Char))
    (opts : GetLinksOptions) (capture : List Char)
    (hnl : '\n' ∉ capture) (hocc : containsSub capture opts.fileContent = true) :
    ∃ p, matchIndexToPosition opts.fileContent capture = Except.ok p ∧
      resolveMatch (fun pat => Except.ok (fgSearch disk pat)) opts capture =
        Except.ok ⟨(disk.find? (fun f => lowerEq f
          (buildPattern opts.project.path opts.pagesDirectory capture))).map
            slashify, p⟩ := by
  rcases matchIndexToPosition_ok hnl hocc with ⟨n, c, _, _, hres⟩
  refine ⟨⟨n, c, c + capture.length⟩, hres, ?_⟩
  have hfind : disk.find? (fun f => lowerEq f
      (buildPattern opts.project.path opts.pagesDirectory capture)) =
      (fgSearch disk
        (buildPattern opts.project.path opts.pagesDirectory capture)).head? :=
    (head_filter_eq_find _ disk).symm
  unfold resolveMatch
  cases hfg : fgSearch disk
      (buildPattern opts.project.path opts.pagesDirectory capture) with
  | nil =>
    rw [hfind, hfg]
    simp only [hfg, hres]
    rfl
  | cons f fs =>
    rw [hfind, hfg]
    simp only [hfg, hres]
    rfl

/-- Witness for the amended C4, exhibiting the case-insensitive resolution of
P3: the reference `'users.show'` resolves against an on-disk
`pages/users/Show.vue` whose case differs from the derived pattern. -/
theorem view_resolution_code_behaviour_witness :
    (∃ p, matchIndexToPosition "render('users.show')".toList
        "'users.show'".toList = Except.ok p ∧
      resolveMatch
          (fun pat => Except.ok (fgSearch ["/p/pages/users/Show.vue".toList] pat))
          ⟨"render('users.show')".toList, ⟨"/p".toList⟩, "pages".toList⟩
          "'users.show'".toList =
        Except.ok ⟨(["/p/pages/users/Show.vue".toList].find? (fun f => lowerEq f
          (buildPattern "/p".toList "pages".toList "'users.show'".toList))).map
            slashify, p⟩) ∧
    (["/p/pages/users/Show.vue".toList].find? (fun f => lowerEq f
        (buildPattern "/p".toList "pages".toList "'users.show'".toList))).map
      slashify = some "/p/pages/users/Show.vue".toList :=
  ⟨view_resolution_code_behaviour ["/p/pages/users/Show.vue".toList]
    ⟨"render('users.show')".toList, ⟨"/p".toList⟩, "pages".toList⟩
    "'users.show'".toList (by decide) (by decide), by decide⟩

/-- Claim C5: for every reference whose derived search pattern matches no file
on disk (the awaited search fulfills with an empty list), resolution returns a
link with an absent (`null`) template path and does not throw: the per-match
promise fulfills. -/
theorem not_found_is_absent_target
    (fsearch : List Char → Except JsError (List (List Char)))
    (opts : GetLinksOptions) (capture : List Char)
    (hnl : '\n' ∉ capture) (hocc : containsSub capture opts.fileContent = true)
    (hempty : fsearch
      (buildPattern opts.project.path opts.pagesDirectory capture) =
      Except.ok []) :
    ∃ p, resolveMatch fsearch opts capture = Except.ok ⟨none, p⟩ := by
  rcases matchIndexToPosition_ok hnl hocc with ⟨n, c, _, _, hres⟩
  refine ⟨⟨n, c, c + capture.length⟩, ?_⟩
  unfold resolveMatch
  simp only [hempty, hres]

/-- Witness for C5: a reference to a nonexistent file yields `templatePath
= none` and a fulfilled promise. -/
theorem not_found_is_absent_target_witness :
    ∃ p, resolveMatch (fun _ => Except.ok [])
        ⟨"render('users.show')".toList, ⟨"/p".toList⟩, "pages".toList⟩
        "'users.show'".toList = Except.ok ⟨none, p⟩ :=
  not_found_is_absent_target (fun _ => Except.ok [])
    ⟨"render('users.show')".toList, ⟨"/p".toList⟩, "pages".toList⟩
    "'users.show'".toList (by decide) (by decide) rfl

/-- Counterexample for C6: one failing filesystem search is NOT isolated to
its own match.  With two matches where the first match's search rejects and
the second match's search succeeds, the whole `getLinks` batch rejects — under
either completion order — although the sibling match resolves successfully on
its own: `Promise.all` is fail-fast, so the resolved sibling link is
discarded. -/
theorem search_failure_aborts_batch_cex :
    getLinks (fun pat => if pat = "/p/pages/a/b.vue".toList then
        Except.error (JsError.fsError "EACCES".toList)
      else Except.ok ["/p/pages/c/d.vue".toList])
      (fun _ => ["'a.b'".toList, "'c.d'".toList])
      ⟨"x 'a.b' y 'c.d'".toList, ⟨"/p".toList⟩, "pages".toList⟩ [0, 1] =
      some (Except.error (JsError.fsError "EACCES".toList)) ∧
    getLinks (fun pat => if pat = "/p/pages/a/b.vue".toList then
        Except.error (JsError.fsError "EACCES".toList)
      else Except.ok ["/p/pages/c/d.vue".toList])
      (fun _ => ["'a.b'".toList, "'c.d'".toList])
      ⟨"x 'a.b' y 'c.d'".toList, ⟨"/p".toList⟩, "pages".toList⟩ [1, 0] =
      some (Except.error (JsError.fsError "EACCES".toList)) ∧
    resolveMatch (fun pat => if pat = "/p/pages/a/b.vue".toList then
        Except.error (JsError.fsError "EACCES".toList)
      else Except.ok ["/p/pages/c/d.vue".toList])
      ⟨"x 'a.b' y 'c.d'".toList, ⟨"/p".toList⟩, "pages".toList⟩ "'c.d'".toList =
      Except.ok ⟨some "/p/pages/c/d.vue".toList, ⟨0, 10, 15⟩⟩ :=
  ⟨rfl, rfl, rfl⟩

/-- Claim C6 as amended: when the filesystem search of any match in the batch
rejects and that match completes, `Promise.all` rejects the whole `getLinks`
call: the batch result is a rejection carrying no link list, so successfully
resolved sibling links are discarded. -/
theorem search_failure_rejects_whole_batch
    (fsearch : List Char → Except JsError (List (List Char)))
    (matchAll : List Char → List (List Char)) (opts : GetLinksOptions)
    (order : List Nat) (j : Nat) (e : JsError)
    (hj : ((matchAll opts.fileContent).map (resolveMatch fsearch opts)).get? j =
      some (Except.error e))
    (hmem : j ∈ order) :
    ∃ e2, getLinks fsearch matchAll opts order =
      some (Except.error e2) := by
  have hview : getLinks fsearch matchAll opts order =
      (promiseAll ((matchAll opts.fileContent).map (resolveMatch fsearch opts))
        order).map (Except.map jsFilterBoolean) := rfl
  rcases promiseAll_err _ order j e hj hmem with ⟨e2, h2⟩
  exact ⟨e2, by rw [hview, h2]; rfl⟩

/-- Witness for the amended C6 at the counterexample's inputs. -/
theorem search_failure_rejects_whole_batch_witness :
    ∃ e2, getLinks (fun pat => if pat = "/p/pages/a/b.vue".toList then
        Except.error (JsError.fsError "EACCES".toList)
      else Except.ok ["/p/pages/c/d.vue".toList])
      (fun _ => ["'a.b'".toList, "'c.d'".toList])
      ⟨"x 'a.b' y 'c.d'".toList, ⟨"/p".toList⟩, "pages".toList⟩ [0, 1] =
      some (Except.error e2) :=
  search_failure_rejects_whole_batch
    (fun pat => if pat = "/p/pages/a/b.vue".toList then
        Except.error (JsError.fsError "EACCES".toList)
      else Except.ok ["/p/pages/c/d.vue".toList])
    (fun _ => ["'a.b'".toList, "'c.d'".toList])
    ⟨"x 'a.b' y 'c.d'".toList, ⟨"/p".toList⟩, "pages".toList⟩ [0, 1] 0
    (JsError.fsError "EACCES".toList) rfl (by decide)

/-- Counterexample for C7: at a text none of whose lines contains the capture,
the position mapper does not return a null/degenerate position — it throws.
`lines.findIndex` yields `-1`, so `lines[-1]!.indexOf` reads a property of
`undefined` and raises a `TypeError`, modelled as `Except.error`. -/
theorem missing_capture_position_cex :
    matchIndexToPosition "hello world".toList "xyz".toList =
      Except.error JsError.typeError := rfl

/-- Claim C7 as amended: for every text and capture string such that the
capture is not contained in any line of the text, the position mapper throws
a `TypeError` (undefined property access) instead of returning a position. -/
theorem missing_capture_throws (text capture : List Char)
    (h : ∀ l ∈ splitOnNl text, containsSub capture l = false) :
    matchIndexToPosition text capture = Except.error JsError.typeError := by
  have hnone : (splitOnNl text).findIdx? (fun l => containsSub capture l) =
      none := List.findIdx?_eq_none_iff.mpr h
  unfold matchIndexToPosition
  simp only [hnone]

/-- Witness for the amended C7. -/
theorem missing_capture_throws_witness :
    matchIndexToPosition "hello world".toList "xyz".toList =
      Except.error JsError.typeError :=
  missing_capture_throws "hello world".toList "xyz".toList (by decide)

/-- Claim C8: the link assembler never filters out unresolved links — every
match, including those with an absent target, appears in the sequence
`getLinks` returns (`result.filter(Boolean)` removes nothing, since every
element is an object); filtering by presence of a target is a caller policy:
`DocumentLinkFactory.fromViewLink` keeps exactly the links whose template path
is non-`null`. -/
theorem assembler_keeps_unresolved_links
    (fsearch : List Char → Except JsError (List (List Char)))
    (matchAll : List Char → List (List Char)) (opts : GetLinksOptions)
    (order : List Nat) (oks : List InertiaLink)
    (hok : (matchAll opts.fileContent).map (resolveMatch fsearch opts) =
      oks.map Except.ok)
    (hcover : ∀ i, i < (matchAll opts.fileContent).length → i ∈ order) :
    getLinks fsearch matchAll opts order = some (Except.ok oks) ∧
    oks.length = (matchAll opts.fileContent).length ∧
    jsFilterBoolean oks = oks ∧
    (fromViewLink oks).length =
      (oks.filter (fun link => link.templatePath.isSome)).length := by
  refine ⟨getLinks_all_ok fsearch matchAll opts order oks hok hcover, ?_,
    jsFilterBoolean_id oks, ?_⟩
  · simpa using (congrArg List.length hok).symm
  · simp [fromViewLink]

/-- Witness for C8: one match resolves, the other does not; both survive the
assembler, and the caller-side `fromViewLink` keeps exactly the resolved
one. -/
theorem assembler_keeps_unresolved_links_witness :
    getLinks (fun pat => if pat = "/p/pages/c/d.vue".toList then
        Except.ok ["/p/pages/c/d.vue".toList]
      else Except.ok [])
      (fun _ => ["'a.b'".toList, "'c.d'".toList])
      ⟨"x 'a.b' y 'c.d'".toList, ⟨"/p".toList⟩, "pages".toList⟩ [0, 1] =
      some (Except.ok [⟨none, ⟨0, 2, 7⟩⟩,
        ⟨some "/p/pages/c/d.vue".toList, ⟨0, 10, 15⟩⟩]) ∧
    ([⟨none, ⟨0, 2, 7⟩⟩, ⟨some "/p/pages/c/d.vue".toList, ⟨0, 10, 15⟩⟩] :
        List InertiaLink).length =
      ((fun _ => ["'a.b'".toList, "'c.d'".toList])
        (GetLinksOptions.fileContent
          ⟨"x 'a.b' y 'c.d'".toList, ⟨"/p".toList⟩, "pages".toList⟩)).length ∧
    jsFilterBoolean [⟨none, ⟨0, 2, 7⟩⟩,
        ⟨some "/p/pages/c/d.vue".toList, ⟨0, 10, 15⟩⟩] =
      [⟨none, ⟨0, 2, 7⟩⟩, ⟨some "/p/pages/c/d.vue".toList, ⟨0, 10, 15⟩⟩] ∧
    (fromViewLink [⟨none, ⟨0, 2, 7⟩⟩,
        ⟨some "/p/pages/c/d.vue".toList, ⟨0, 10, 15⟩⟩]).length =
      (([⟨none, ⟨0, 2, 7⟩⟩, ⟨some "/p/pages/c/d.vue".toList, ⟨0, 10, 15⟩⟩] :
        List InertiaLink).filter
          (fun link => link.templatePath.isSome)).length :=
  assembler_keeps_unresolved_links
    (fun pat => if pat = "/p/pages/c/d.vue".toList then
        Except.ok ["/p/pages/c/d.vue".toList]
      else Except.ok [])
    (fun _ => ["'a.b'".toList, "'c.d'".toList])
    ⟨"x 'a.b' y 'c.d'".toList, ⟨"/p".toList⟩, "pages".toList⟩ [0, 1]
    [⟨none, ⟨0, 2, 7⟩⟩, ⟨some "/p/pages/c/d.vue".toList, ⟨0, 10, 15⟩⟩]
    (by rfl) (by decide)

/-- Claim C9: two invocations of the full resolution pass with the same file
content, project, pages directory, and unchanged filesystem (the same
`fsearch`) yield identical link sequences, even when the two runs' concurrent
lookups complete in different orders. -/
theorem getLinks_idempotent
    (fsearch : List Char → Except JsError (List (List Char)))
    (matchAll : List Char → List (List Char)) (opts : GetLinksOptions)
    (o1 o2 : List Nat) (oks : List InertiaLink)
    (hok : (matchAll opts.fileContent).map (resolveMatch fsearch opts) =
      oks.map Except.ok)
    (h1 : ∀ i, i < (matchAll opts.fileContent).length → i ∈ o1)
    (h2 : ∀ i, i < (matchAll opts.fileContent).length → i ∈ o2) :
    getLinks fsearch matchAll opts o1 = getLinks fsearch matchAll opts o2 ∧
    getLinks fsearch matchAll opts o1 = some (Except.ok oks) := by
  have g1 := getLinks_all_ok fsearch matchAll opts o1 oks hok h1
  have g2 := getLinks_all_ok fsearch matchAll opts o2 oks hok h2
  exact ⟨g1.trans g2.symm, g1⟩

/-- Witness for C9: two runs with completion orders `[0, 1]` and `[1, 0]`
produce the same sequence. -/
theorem getLinks_idempotent_witness :
    getLinks (fun _ => Except.ok []) (fun _ => ["'a.b'".toList, "'c.d'".toList])
        ⟨"x 'a.b' y 'c.d'".toList, ⟨"/p".toList⟩, "pages".toList⟩ [0, 1] =
      getLinks (fun _ => Except.ok [])
        (fun _ => ["'a.b'".toList, "'c.d'".toList])
        ⟨"x 'a.b' y 'c.d'".toList, ⟨"/p".toList⟩, "pages".toList⟩ [1, 0] ∧
    getLinks (fun _ => Except.ok [])
        (fun _ => ["'a.b'".toList, "'c.d'".toList])
        ⟨"x 'a.b' y 'c.d'".toList, ⟨"/p".toList⟩, "pages".toList⟩ [0, 1] =
      some (Except.ok [⟨none, ⟨0, 2, 7⟩⟩, ⟨none, ⟨0, 10, 15⟩⟩]) :=
  getLinks_idempotent (fun _ => Except.ok [])
    (fun _ => ["'a.b'".toList, "'c.d'".toList])
    ⟨"x 'a.b' y 'c.d'".toList, ⟨"/p".toList⟩, "pages".toList⟩ [0, 1] [1, 0]
    [⟨none, ⟨0, 2, 7⟩⟩, ⟨none, ⟨0, 10, 15⟩⟩] (by rfl) (by decide) (by decide)

/-- Claim C10: whenever the case-insensitive search returns at least one
entry, the stored `templatePath` is the enumerated on-disk file path (with its
real casing, normalized to forward slashes): it is a member of the filesystem
and equals the convention-derived candidate pattern only up to character
case. -/
theorem resolved_path_is_enumerated_disk_path (disk : List (List Char))
    (opts : GetLinksOptions) (capture : List Char) (f : List Char)
    (fs : List (List Char))
    (hnl : '\n' ∉ capture) (hocc : containsSub capture opts.fileContent = true)
    (hfg : fgSearch disk
      (buildPattern opts.project.path opts.pagesDirectory capture) = f :: fs) :
    ∃ p, resolveMatch (fun pat => Except.ok (fgSearch disk pat)) opts capture =
        Except.ok ⟨some (slashify f), p⟩ ∧
      f ∈ disk ∧
      lowerEq f (buildPattern opts.project.path opts.pagesDirectory capture) =
        true := by
  rcases matchIndexToPosition_ok hnl hocc with ⟨n, c, _, _, hres⟩
  have hmem : f ∈ fgSearch disk
      (buildPattern opts.project.path opts.pagesDirectory capture) :=
    hfg ▸ List.mem_cons_self f fs
  obtain ⟨hdisk, hpred⟩ := List.mem_filter.mp hmem
  refine ⟨⟨n, c, c + capture.length⟩, ?_, hdisk, by simpa using hpred⟩
  unfold resolveMatch
  simp only [hfg, hres]

/-- Witness for C10: the returned path is the on-disk `Show.vue`, differing in
case from the derived pattern `show.vue`. -/
theorem resolved_path_is_enumerated_disk_path_witness :
    (∃ p, resolveMatch
        (fun pat => Except.ok (fgSearch ["/p/pages/users/Show.vue".toList] pat))
        ⟨"render('users.show')".toList, ⟨"/p".toList⟩, "pages".toList⟩
        "'users.show'".toList =
        Except.ok ⟨some (slashify "/p/pages/users/Show.vue".toList), p⟩ ∧
      "/p/pages/users/Show.vue".toList ∈ ["/p/pages/users/Show.vue".toList] ∧
      lowerEq "/p/pages/users/Show.vue".toList
        (buildPattern "/p".toList "pages".toList "'users.show'".toList) =
        true) ∧
    slashify "/p/pages/users/Show.vue".toList ≠
      buildPattern "/p".toList "pages".toList "'users.show'".toList :=
  ⟨resolved_path_is_enumerated_disk_path ["/p/pages/users/Show.vue".toList]
    ⟨"render('users.show')".toList, ⟨"/p".toList⟩, "pages".toList⟩
    "'users.show'".toList "/p/pages/users/Show.vue".toList []
    (by decide) (by decide) (by decide), by decide⟩

end AdonisLinker
